import Mathlib

/-!
Verification of the hybrid reconciliation engine in `src/services/db.ts`
and the encoding routines in the security utility module.

JavaScript strings are modelled as lists of UTF-16 code units (`List Nat`).
`String.prototype.trim` is modelled over the common ASCII whitespace set,
`toLowerCase` as ASCII case folding, and `localeCompare` as code-unit
lexicographic comparison.  `Array.prototype.sort` (required stable by the
JS spec) is modelled as a stable insertion sort.  JS `Set`s of strings are
modelled as duplicate-free lists, with membership as the observable.
-/

/-- A JavaScript string: a list of UTF-16 code units. -/
abbrev JStr := List Nat

/-- ASCII whitespace recognised by the model of `String.prototype.trim`. -/
def isJsWs (c : Nat) : Bool := c = 9 || c = 10 || c = 11 || c = 12 || c = 13 || c = 32

/-- Model of `s.trim()`: drop whitespace from both ends. -/
def trimL (s : JStr) : JStr :=
  ((s.dropWhile isJsWs).reverse.dropWhile isJsWs).reverse

/-- Model of `s.toLowerCase()` (ASCII case folding). -/
def toLowerL (s : JStr) : JStr :=
  s.map (fun c => if 65 ≤ c ∧ c ≤ 90 then c + 32 else c)

/-- Model of `s.startsWith(pat)` on code-unit lists. -/
def startsWithL (pat s : JStr) : Bool :=
  match pat, s with
  | [], _ => true
  | _ :: _, [] => false
  | p :: ps, c :: cs => p = c && startsWithL ps cs

/-- Model of `s.replace(pat, "")` for a string pattern: remove the first
occurrence of `pat` (JS `String.prototype.replace` with a string argument
replaces only the first match). -/
def replaceFirstL (pat : JStr) : JStr → JStr
  | [] => []
  | c :: cs =>
    if startsWithL pat (c :: cs) then (c :: cs).drop pat.length
    else c :: replaceFirstL pat cs

/-- Code-unit lexicographic "less or equal" on JS strings; the model of a
`localeCompare`-based comparator returning a nonpositive value. -/
def natListLe : JStr → JStr → Bool
  | [], _ => true
  | _ :: _, [] => false
  | a :: as, b :: bs => if a < b then true else if b < a then false else natListLe as bs

theorem natListLe_total : ∀ a b : JStr, natListLe a b = true ∨ natListLe b a = true := by
  intro a
  induction a with
  | nil => intro b; left; rfl
  | cons x xs ih =>
    intro b
    cases b with
    | nil => right; rfl
    | cons y ys =>
      rcases Nat.lt_trichotomy x y with h | h | h
      · left; simp [natListLe, h]
      · subst h
        rcases ih ys with h2 | h2
        · left; simp [natListLe, h2]
        · right; simp [natListLe, h2]
      · right; simp [natListLe, h, Nat.not_lt.mpr (Nat.le_of_lt h)]

theorem natListLe_trans : ∀ a b c : JStr,
    natListLe a b = true → natListLe b c = true → natListLe a c = true := by
  intro a
  induction a with
  | nil => intro b c _ _; rfl
  | cons x xs ih =>
    intro b c hab hbc
    cases b with
    | nil => simp [natListLe] at hab
    | cons y ys =>
      cases c with
      | nil => simp [natListLe] at hbc
      | cons z zs =>
        simp only [natListLe] at hab hbc ⊢
        by_cases hxy : x < y
        · by_cases hyz : y < z
          · simp [Nat.lt_trans hxy hyz]
          · by_cases hzy : z < y
            · simp [natListLe, hyz, hzy] at hbc
            · have : y = z := Nat.le_antisymm (Nat.not_lt.mp hzy) (Nat.not_lt.mp hyz)
              subst this
              simp [hxy]
        · by_cases hyx : y < x
          · simp [natListLe, hxy, hyx] at hab
          · have hxyeq : x = y := Nat.le_antisymm (Nat.not_lt.mp hyx) (Nat.not_lt.mp hxy)
            subst hxyeq
            by_cases hyz : x < z
            · simp [hyz]
            · by_cases hzy : z < x
              · simp [natListLe, hyz, hzy] at hbc
              · have : x = z := Nat.le_antisymm (Nat.not_lt.mp hzy) (Nat.not_lt.mp hyz)
                subst this
                simp [Nat.lt_irrefl, natListLe, hxy] at hab hbc ⊢
                exact ih ys zs hab hbc

/-- Fuel-indexed stable two-way merge (structurally recursive on the fuel,
so that it evaluates inside the kernel); the fuel is immaterial as long as
it covers the combined length. -/
def mergeLF (le : α → α → Bool) : Nat → List α → List α → List α
  | _, [], ys => ys
  | _, xs, [] => xs
  | 0, xs, ys => xs ++ ys
  | fuel + 1, x :: xs, y :: ys =>
    if le x y then x :: mergeLF le fuel xs (y :: ys) else y :: mergeLF le fuel (x :: xs) ys

/-- Stable two-way merge used to model JS `Array.prototype.sort` (stable by
the ECMAScript spec): on ties the left (earlier) element is taken first. -/
def mergeL (le : α → α → Bool) (xs ys : List α) : List α :=
  mergeLF le (xs.length + ys.length) xs ys

/-- Stable insertion sort: the model of `Array.prototype.sort(cmp)`. -/
def insSort (le : α → α → Bool) : List α → List α
  | [] => []
  | x :: xs => mergeL le [x] (insSort le xs)

theorem mergeLF_fuel (le : α → α → Bool) :
    ∀ (f1 f2 : Nat) (xs ys : List α), xs.length + ys.length ≤ f1 →
      xs.length + ys.length ≤ f2 → mergeLF le f1 xs ys = mergeLF le f2 xs ys := by
  intro f1
  induction f1 with
  | zero =>
    intro f2 xs ys h1 _
    cases xs with
    | nil => simp [mergeLF]
    | cons x xs => simp at h1
  | succ f ih =>
    intro f2 xs ys h1 h2
    cases xs with
    | nil => simp [mergeLF]
    | cons x xs =>
      cases ys with
      | nil => simp [mergeLF]
      | cons y ys =>
        cases f2 with
        | zero => simp at h2
        | succ f2p =>
          show (if le x y then x :: mergeLF le f xs (y :: ys)
              else y :: mergeLF le f (x :: xs) ys) =
            (if le x y then x :: mergeLF le f2p xs (y :: ys)
              else y :: mergeLF le f2p (x :: xs) ys)
          by_cases h : le x y = true
          · rw [if_pos h, if_pos h, ih f2p xs (y :: ys) (by simp at h1 ⊢; omega)
              (by simp at h2 ⊢; omega)]
          · rw [if_neg h, if_neg h, ih f2p (x :: xs) ys (by simp at h1 ⊢; omega)
              (by simp at h2 ⊢; omega)]

theorem mergeL_nil_left (le : α → α → Bool) (ys : List α) : mergeL le [] ys = ys := by
  cases ys <;> rfl

theorem mergeL_nil_right (le : α → α → Bool) (xs : List α) : mergeL le xs [] = xs := by
  cases xs <;> rfl

theorem mergeL_cons_cons (le : α → α → Bool) (x y : α) (xs ys : List α) :
    mergeL le (x :: xs) (y :: ys) =
      if le x y then x :: mergeL le xs (y :: ys) else y :: mergeL le (x :: xs) ys := by
  show (if le x y then x :: mergeLF le ((x :: xs).length + ys.length) xs (y :: ys)
      else y :: mergeLF le ((x :: xs).length + ys.length) (x :: xs) ys) = _
  by_cases h : le x y = true
  · rw [if_pos h, if_pos h,
      mergeLF_fuel le ((x :: xs).length + ys.length) (xs.length + (y :: ys).length) xs
        (y :: ys) (by simp; omega) (by simp)]
    rfl
  · rw [if_neg h, if_neg h]
    rfl

theorem mem_mergeL (le : α → α → Bool) :
    ∀ (xs ys : List α) (a : α), a ∈ mergeL le xs ys ↔ a ∈ xs ∨ a ∈ ys := by
  intro xs
  induction xs with
  | nil => intro ys a; simp [mergeL_nil_left]
  | cons x xs ihx =>
    intro ys
    induction ys with
    | nil => intro a; simp [mergeL_nil_right]
    | cons y ys ihy =>
      intro a
      rw [mergeL_cons_cons]
      by_cases h : le x y = true
      · rw [if_pos h]
        simp only [List.mem_cons, ihx (y :: ys) a, List.mem_cons]
        tauto
      · rw [if_neg h]
        simp only [List.mem_cons, ihy a, List.mem_cons]
        tauto

theorem mergeL_perm (le : α → α → Bool) :
    ∀ (xs ys : List α), List.Perm (mergeL le xs ys) (xs ++ ys) := by
  intro xs
  induction xs with
  | nil => intro ys; simp [mergeL_nil_left]
  | cons x xs ihx =>
    intro ys
    induction ys with
    | nil => simp [mergeL_nil_right]
    | cons y ys ihy =>
      rw [mergeL_cons_cons]
      by_cases h : le x y = true
      · rw [if_pos h]
        exact (ihx (y :: ys)).cons x
      · rw [if_neg h]
        exact (ihy.cons y).trans List.perm_middle.symm

theorem insSort_perm (le : α → α → Bool) : ∀ l : List α, List.Perm (insSort le l) l := by
  intro l
  induction l with
  | nil => simp [insSort]
  | cons x xs ih =>
    exact (mergeL_perm le [x] (insSort le xs)).trans (ih.cons x)

theorem mem_insSort (le : α → α → Bool) (l : List α) (a : α) :
    a ∈ insSort le l ↔ a ∈ l :=
  (insSort_perm le l).mem_iff

/-- Associativity of the stable merge, for any total transitive comparator. -/
theorem mergeL_assoc (le : α → α → Bool)
    (htot : ∀ a b, le a b = true ∨ le b a = true)
    (htr : ∀ a b c, le a b = true → le b c = true → le a c = true) :
    ∀ (A B C : List α), mergeL le (mergeL le A B) C = mergeL le A (mergeL le B C)
  | [], B, C => by rw [mergeL_nil_left, mergeL_nil_left]
  | a :: A, [], C => by rw [mergeL_nil_right, mergeL_nil_left]
  | a :: A, b :: B, [] => by rw [mergeL_nil_right, mergeL_nil_right]
  | a :: A, b :: B, c :: C => by
    by_cases hab : le a b = true
    · rw [mergeL_cons_cons, if_pos hab]
      by_cases hac : le a c = true
      · rw [mergeL_cons_cons, if_pos hac, mergeL_assoc le htot htr A (b :: B) (c :: C)]
        by_cases hbc : le b c = true
        · rw [mergeL_cons_cons le b c B C, if_pos hbc,
            mergeL_cons_cons le a b A (mergeL le B (c :: C)), if_pos hab]
        · rw [mergeL_cons_cons le b c B C, if_neg hbc,
            mergeL_cons_cons le a c A (mergeL le (b :: B) C), if_pos hac]
      · have hbc : ¬ le b c = true := fun h => hac (htr a b c hab h)
        rw [mergeL_cons_cons, if_neg hac, mergeL_cons_cons le b c B C, if_neg hbc,
          mergeL_cons_cons le a c A (mergeL le (b :: B) C), if_neg hac]
        have : mergeL le (a :: mergeL le A (b :: B)) C
            = mergeL le (mergeL le (a :: A) (b :: B)) C := by
          rw [mergeL_cons_cons, if_pos hab]
        rw [this, mergeL_assoc le htot htr (a :: A) (b :: B) C]
    · have hba : le b a = true := (htot a b).resolve_left hab
      rw [mergeL_cons_cons, if_neg hab]
      by_cases hbc : le b c = true
      · rw [mergeL_cons_cons, if_pos hbc, mergeL_assoc le htot htr (a :: A) B (c :: C),
          mergeL_cons_cons le b c B C, if_pos hbc,
          mergeL_cons_cons le a b A (mergeL le B (c :: C)), if_neg hab]
      · have hac : ¬ le a c = true := by
          intro h
          have hcb : le c b = true := (htot b c).resolve_left hbc
          exact hab (htr a c b h hcb)
        rw [mergeL_cons_cons, if_neg hbc, mergeL_cons_cons le b c B C, if_neg hbc,
          mergeL_cons_cons le a c A (mergeL le (b :: B) C), if_neg hac]
        have : mergeL le (b :: mergeL le (a :: A) B) C
            = mergeL le (mergeL le (a :: A) (b :: B)) C := by
          rw [mergeL_cons_cons le a b A B, if_neg hab]
        rw [this, mergeL_assoc le htot htr (a :: A) (b :: B) C]
termination_by A B C => A.length + B.length + C.length

/-- The model sort distributes over append as a stable merge of the two sorts. -/
theorem insSort_append (le : α → α → Bool)
    (htot : ∀ a b, le a b = true ∨ le b a = true)
    (htr : ∀ a b c, le a b = true → le b c = true → le a c = true) :
    ∀ (l₁ l₂ : List α), insSort le (l₁ ++ l₂) = mergeL le (insSort le l₁) (insSort le l₂) := by
  intro l₁ l₂
  induction l₁ with
  | nil => simp [insSort, mergeL_nil_left]
  | cons x xs ih =>
    show mergeL le [x] (insSort le (xs ++ l₂)) = mergeL le (mergeL le [x] (insSort le xs)) (insSort le l₂)
    rw [ih, mergeL_assoc le htot htr]

theorem filter_of_all_true (p : α → Bool) :
    ∀ l : List α, (∀ a ∈ l, p a = true) → l.filter p = l := by
  intro l h
  induction l with
  | nil => rfl
  | cons x xs ih =>
    rw [List.filter_cons, if_pos (h x (List.mem_cons_self x xs))]
    rw [ih (fun a ha => h a (List.mem_cons_of_mem x ha))]

theorem filter_of_all_false (p : α → Bool) :
    ∀ l : List α, (∀ a ∈ l, p a = false) → l.filter p = [] := by
  intro l h
  induction l with
  | nil => rfl
  | cons x xs ih =>
    rw [List.filter_cons, if_neg (by simp [h x (List.mem_cons_self x xs)])]
    exact ih (fun a ha => h a (List.mem_cons_of_mem x ha))

/-- Filtering a stable merge whose left part wholly fails the predicate and
whose right part wholly satisfies it recovers exactly the right part. -/
theorem filter_mergeL_of (le : α → α → Bool) (p : α → Bool) :
    ∀ (A B : List α), (∀ a ∈ A, p a = false) → (∀ b ∈ B, p b = true) →
      (mergeL le A B).filter p = B
  | [], B => fun _ hB => by rw [mergeL_nil_left]; exact filter_of_all_true p B hB
  | a :: A, [] => fun hA _ => by
      rw [mergeL_nil_right]; exact filter_of_all_false p (a :: A) hA
  | a :: A, b :: B => fun hA hB => by
      rw [mergeL_cons_cons]
      by_cases h : le a b = true
      · rw [if_pos h, List.filter_cons, if_neg (by simp [hA a (List.mem_cons_self a A)])]
        exact filter_mergeL_of le p A (b :: B) (fun x hx => hA x (List.mem_cons_of_mem a hx)) hB
      · rw [if_neg h, List.filter_cons, if_pos (by simp [hB b (List.mem_cons_self b B)])]
        rw [filter_mergeL_of le p (a :: A) B hA (fun x hx => hB x (List.mem_cons_of_mem b hx))]
termination_by A B => A.length + B.length

theorem sorted_mergeL (le : α → α → Bool)
    (htot : ∀ a b, le a b = true ∨ le b a = true)
    (htr : ∀ a b c, le a b = true → le b c = true → le a c = true) :
    ∀ (A B : List α), A.Pairwise (fun a b => le a b = true) →
      B.Pairwise (fun a b => le a b = true) →
      (mergeL le A B).Pairwise (fun a b => le a b = true)
  | [], B => fun _ hB => by rw [mergeL_nil_left]; exact hB
  | a :: A, [] => fun hA _ => by rw [mergeL_nil_right]; exact hA
  | a :: A, b :: B => fun hA hB => by
    rw [mergeL_cons_cons]
    by_cases h : le a b = true
    · rw [if_pos h]
      refine List.Pairwise.cons ?_ ?_
      · intro y hy
        rcases (mem_mergeL le A (b :: B) y).mp hy with hyA | hyB
        · exact (List.pairwise_cons.mp hA).1 y hyA
        · rcases List.mem_cons.mp hyB with rfl | hyB2
          · exact h
          · exact htr a b y h ((List.pairwise_cons.mp hB).1 y hyB2)
      · exact sorted_mergeL le htot htr A (b :: B) (List.pairwise_cons.mp hA).2 hB
    · have hba : le b a = true := (htot a b).resolve_left h
      rw [if_neg h]
      refine List.Pairwise.cons ?_ ?_
      · intro y hy
        rcases (mem_mergeL le (a :: A) B y).mp hy with hyA | hyB
        · rcases List.mem_cons.mp hyA with rfl | hyA2
          · exact hba
          · exact htr b a y hba ((List.pairwise_cons.mp hA).1 y hyA2)
        · exact (List.pairwise_cons.mp hB).1 y hyB
      · exact sorted_mergeL le htot htr (a :: A) B hA (List.pairwise_cons.mp hB).2
termination_by A B => A.length + B.length

theorem sorted_insSort (le : α → α → Bool)
    (htot : ∀ a b, le a b = true ∨ le b a = true)
    (htr : ∀ a b c, le a b = true → le b c = true → le a c = true)
    (l : List α) : (insSort le l).Pairwise (fun a b => le a b = true) := by
  induction l with
  | nil => exact List.Pairwise.nil
  | cons x xs ih =>
    exact sorted_mergeL le htot htr [x] (insSort le xs) (List.pairwise_singleton _ x) ih

theorem insSort_of_sorted (le : α → α → Bool) :
    ∀ l : List α, l.Pairwise (fun a b => le a b = true) → insSort le l = l := by
  intro l hl
  induction l with
  | nil => rfl
  | cons x xs ih =>
    show mergeL le [x] (insSort le xs) = x :: xs
    rw [ih (List.pairwise_cons.mp hl).2]
    cases xs with
    | nil => rw [mergeL_nil_right]
    | cons y ys =>
      rw [mergeL_cons_cons,
        if_pos ((List.pairwise_cons.mp hl).1 y (List.mem_cons_self y ys)), mergeL_nil_left]

theorem insSort_idem (le : α → α → Bool)
    (htot : ∀ a b, le a b = true ∨ le b a = true)
    (htr : ∀ a b c, le a b = true → le b c = true → le a c = true)
    (l : List α) : insSort le (insSort le l) = insSort le l :=
  insSort_of_sorted le (insSort le l) (sorted_insSort le htot htr l)

/-- Insert into a modelled JS `Set` of strings (`Set.prototype.add`):
append only when absent, keeping the list duplicate-free. -/
def insertSet (x : JStr) (l : List JStr) : List JStr :=
  if x ∈ l then l else l ++ [x]

/-- Remove from a modelled JS `Set` of strings (`Set.prototype.delete`). -/
def removeSet (x : JStr) (l : List JStr) : List JStr :=
  l.filter (fun y => decide (y ≠ x))

/-- A category record, as produced by the categories snapshot mapper in
`subscribeToCategories` (`id` from the document id, `name` from the data). -/
structure Category where
  id : JStr
  name : JStr
  deriving DecidableEq

/-- `name.trim().toLowerCase()` — the normalized natural key used by the
tombstone registry and the pending-item detection. -/
def normKey (s : JStr) : JStr := toLowerL (trimL s)

/-- Comparator of the categories sort: `a.name.localeCompare(b.name) <= 0`. -/
def leCatName (a b : Category) : Bool := natListLe a.name b.name

/-- The tombstone filter applied to the categories snapshot: drop any record
whose id is in `PENDING_DELETES` or whose normalized name is in
`PENDING_DELETE_NAMES`. -/
def catsOf (snap : List Category) (pd pdn : List JStr) : List Category :=
  snap.filter (fun c => decide (c.id ∉ pd) && decide (normKey c.name ∉ pdn))

/-- `cloudNames`: the lowercased (not trimmed) names of the surviving
snapshot records. -/
def cloudNamesOf (snap : List Category) (pd pdn : List JStr) : List JStr :=
  (catsOf snap pd pdn).map (fun c => toLowerL c.name)

/-- `pendingItems`: cache records whose normalized name is not among the
cloud names and that are not tombstoned. -/
def pendingOf (snap cache : List Category) (pd pdn : List JStr) : List Category :=
  cache.filter (fun c =>
    decide (normKey c.name ∉ cloudNamesOf snap pd pdn) && decide (c.id ∉ pd) &&
      decide (normKey c.name ∉ pdn))

/-- The snapshot-merge step of `subscribeToCategories` (db.ts lines 147-170):
filter the remote snapshot by both tombstone sets, keep cache records whose
lowercased name is not among the surviving cloud names (and that are not
tombstoned) as pending items, concatenate, and sort by name. -/
def reconcileCategories (snap cache : List Category) (pd pdn : List JStr) : List Category :=
  insSort leCatName (catsOf snap pd pdn ++ pendingOf snap cache pd pdn)

/-- The module-level mutable state relevant to the categories collection:
`MOCK_CATEGORIES`, `PENDING_DELETES` and `PENDING_DELETE_NAMES`. -/
structure CatState where
  cache : List Category
  pd : List JStr
  pdn : List JStr
  deriving DecidableEq

/-- Processing one remote categories snapshot: the `onSnapshot` handler
replaces `MOCK_CATEGORIES` with the merged view; the tombstone sets are not
touched by this handler. -/
def catSnapStep (st : CatState) (snap : List Category) : CatState :=
  { st with cache := reconcileCategories snap st.cache st.pd st.pdn }

/-- The views published by a sequence of snapshot arrivals (each view is both
written to the cache and handed to `notifyListeners`). -/
def catViews (st : CatState) : List (List Category) → List (List Category)
  | [] => []
  | s :: ss => (catSnapStep st s).cache :: catViews (catSnapStep st s) ss

/-- Code units of the string `temp_`, the marker of locally generated ids. -/
def tempMarker : JStr := [116, 101, 109, 112, 95]

/-- The synchronous local effect of `deleteSystemCategory` (db.ts lines
222-243): record the name tombstone when the record is found in the cache,
record the id tombstone, drop the record from the cache; in connected mode a
`temp_` id is removed from the id tombstone set again before returning. -/
def deleteSystemCategoryLocal (online : Bool) (id : JStr) (st : CatState) : CatState :=
  let pdn2 := match st.cache.find? (fun c => decide (c.id = id)) with
    | some target => insertSet (normKey target.name) st.pdn
    | none => st.pdn
  let pd1 := insertSet id st.pd
  let cache2 := st.cache.filter (fun c => decide (c.id ≠ id))
  let pd2 := if online && startsWithL tempMarker id then removeSet id pd1 else pd1
  ⟨cache2, pd2, pdn2⟩

/-- The synchronous local effect of `addSystemCategory` (db.ts lines
185-220): cancel a matching name tombstone, reject a duplicate name, and in
offline mode only, append an optimistic record with a `temp_` id.  The
returned flag is `false` when the duplicate check throws. -/
def addSystemCategoryLocal (online : Bool) (name nowId : JStr) (st : CatState) :
    CatState × Bool :=
  let nn := normKey name
  let pdn2 := removeSet nn st.pdn
  if st.cache.any (fun c => decide (toLowerL c.name = nn)) then
    ({ st with pdn := pdn2 }, false)
  else if online then
    ({ st with pdn := pdn2 }, true)
  else
    (⟨st.cache ++ [⟨tempMarker ++ nowId, trimL name⟩], st.pd, pdn2⟩, true)

/-- The base64 alphabet (code units of `A-Z a-z 0-9 + /`). -/
def b64Alphabet : List Nat :=
  [65, 66, 67, 68, 69, 70, 71, 72, 73, 74, 75, 76, 77, 78, 79, 80, 81, 82,
   83, 84, 85, 86, 87, 88, 89, 90,
   97, 98, 99, 100, 101, 102, 103, 104, 105, 106, 107, 108, 109, 110, 111,
   112, 113, 114, 115, 116, 117, 118, 119, 120, 121, 122,
   48, 49, 50, 51, 52, 53, 54, 55, 56, 57, 43, 47]

/-- The base64 digit character for a sextet value. -/
def b64CharOf (n : Nat) : Nat := b64Alphabet.getD n 0

/-- The sextet value of a base64 digit character, if any. -/
def sextetOf (c : Nat) : Option Nat := b64Alphabet.indexOf? c

/-- Core of `btoa`: standard base64 over a byte list, with `=` padding. -/
def btoaBytes : List Nat → List Nat
  | [] => []
  | [b0] => [b64CharOf (b0 / 4), b64CharOf (b0 % 4 * 16), 61, 61]
  | [b0, b1] =>
    [b64CharOf (b0 / 4), b64CharOf (b0 % 4 * 16 + b1 / 16), b64CharOf (b1 % 16 * 4), 61]
  | b0 :: b1 :: b2 :: rest =>
    b64CharOf (b0 / 4) :: b64CharOf (b0 % 4 * 16 + b1 / 16) ::
      b64CharOf (b1 % 16 * 4 + b2 / 64) :: b64CharOf (b2 % 64) :: btoaBytes rest

/-- Model of the platform `btoa`: defined only on Latin-1 strings (code
units below 256); a larger code unit raises, modelled as `none`. -/
def btoaL (s : JStr) : Option JStr :=
  if s.all (fun c => decide (c < 256)) then some (btoaBytes s) else none

/-- Decode two base64 digits into one byte (a final group of two). -/
def b64Dec2 (c0 c1 : Nat) : Option (List Nat) :=
  match sextetOf c0, sextetOf c1 with
  | some s0, some s1 => some [s0 * 4 + s1 / 16]
  | _, _ => none

/-- Decode three base64 digits into two bytes (a final group of three). -/
def b64Dec3 (c0 c1 c2 : Nat) : Option (List Nat) :=
  match sextetOf c0, sextetOf c1, sextetOf c2 with
  | some s0, some s1, some s2 => some [s0 * 4 + s1 / 16, s1 % 16 * 16 + s2 / 4]
  | _, _, _ => none

/-- Core of `atob` (forgiving base64, after whitespace removal): groups of
four digits, with an optional final group of two or three digits that may be
completed by `=` padding; any other shape or character is an error. -/
def atobCore : List Nat → Option (List Nat)
  | [] => some []
  | [_] => none
  | [c0, c1] => b64Dec2 c0 c1
  | [c0, c1, c2] => b64Dec3 c0 c1 c2
  | c0 :: c1 :: c2 :: c3 :: rest =>
    if rest = [] ∧ c2 = 61 ∧ c3 = 61 then b64Dec2 c0 c1
    else if rest = [] ∧ c3 = 61 then b64Dec3 c0 c1 c2
    else
      match sextetOf c0, sextetOf c1, sextetOf c2, sextetOf c3, atobCore rest with
      | some s0, some s1, some s2, some s3, some bs =>
        some ((s0 * 4 + s1 / 16) :: (s1 % 16 * 16 + s2 / 4) :: (s2 % 4 * 64 + s3) :: bs)
      | _, _, _, _, _ => none

/-- Model of the platform `atob` (WHATWG forgiving-base64 decode): strip
ASCII whitespace, then decode; a malformed payload is an error (`none`),
which in the browser surfaces as a thrown `InvalidCharacterError`. -/
def atobL (s : JStr) : Option JStr :=
  atobCore (s.filter (fun c => !isJsWs c))

/-- Code units of the string `ENC_` prepended by `encryptData`. -/
def encMarker : JStr := [69, 78, 67, 95]

/-- Code units of the salt string `THESIS_SECURE_`. -/
def secretKeyCodes : JStr := [84, 72, 69, 83, 73, 83, 95, 83, 69, 67, 85, 82, 69, 95]

/-- `encryptData` from the security module: prepend the salt, base64 encode,
and tag with `ENC_`.  `none` models the `btoa` exception on a non-Latin-1
input. -/
def encryptData (value : JStr) : Option JStr :=
  (btoaL (secretKeyCodes ++ value)).map (fun b => encMarker ++ b)

/-- Code units of the string `0`. -/
def zeroStr : JStr := [48]

/-- `decryptData` from the security module: total; inputs without the
`ENC_` tag and inputs whose base64 payload fails to decode both yield the
default string `0`; otherwise the first occurrence of the salt is removed
from the decoded text. -/
def decryptData (encryptedValue : JStr) : JStr :=
  if !startsWithL encMarker encryptedValue then zeroStr
  else
    match atobL (replaceFirstL encMarker encryptedValue) with
    | none => zeroStr
    | some decoded => replaceFirstL secretKeyCodes decoded

/-- A raw cutoff document as stored remotely (encoded payload fields). -/
structure CutoffDoc where
  id : JStr
  userId : JStr
  startDate : JStr
  encryptedTotalIncome : JStr
  encryptedTotalSavings : JStr
  deriving DecidableEq

/-- A decoded cutoff record as held in the cache.  The decoded amounts are
kept as the decoded strings (`parseFloat` is applied to them downstream). -/
structure CutOff where
  id : JStr
  userId : JStr
  startDate : JStr
  decryptedIncome : JStr
  decryptedSavings : JStr
  deriving DecidableEq

/-- The per-document decode step of the cutoffs snapshot handler (db.ts
lines 473-481): each record is decoded independently via `decryptData`. -/
def decodeCutoffDoc (d : CutoffDoc) : CutOff :=
  ⟨d.id, d.userId, d.startDate,
   decryptData d.encryptedTotalIncome, decryptData d.encryptedTotalSavings⟩

/-- The whole-snapshot decode step: a list map of the per-document decode. -/
def decodeCutoffSnapshot (ds : List CutoffDoc) : List CutOff :=
  ds.map decodeCutoffDoc

/-- Comparator of the cutoffs sort: `b.startDate.localeCompare(a.startDate)`,
i.e. reverse-chronological. -/
def leStartDesc (a b : CutOff) : Bool := natListLe b.startDate a.startDate

/-- `cloudData` of the cutoffs snapshot handler: decoded records, sorted
reverse-chronologically by start date. -/
def cutoffCloudData (snap : List CutoffDoc) : List CutOff :=
  insSort leStartDesc (decodeCutoffSnapshot snap)

/-- The snapshot-merge step of `subscribeToCutoffs` (db.ts lines 472-490):
decode, sort descending by start date, keep the cache records of this owner
that the cloud has not echoed yet as optimistic, keep records of other owners
untouched, and concatenate `others ++ cloudData ++ optimistic`. -/
def reconcileCutoffs (userId : JStr) (snap : List CutoffDoc) (cache : List CutOff) :
    List CutOff :=
  cache.filter (fun c => decide (c.userId ≠ userId)) ++ cutoffCloudData snap ++
    cache.filter (fun c =>
      decide (c.userId = userId) &&
        decide (c.id ∉ (cutoffCloudData snap).map (fun d => d.id)))

/-- A raw expense document as stored remotely. -/
structure ExpenseDoc where
  id : JStr
  userId : JStr
  date : JStr
  category : JStr
  encryptedAmount : JStr
  deriving DecidableEq

/-- A decoded expense record as held in the cache. -/
structure Expense where
  id : JStr
  userId : JStr
  date : JStr
  category : JStr
  decryptedAmount : JStr
  deriving DecidableEq

/-- The per-document decode step of the expenses snapshot handler. -/
def decodeExpenseDoc (d : ExpenseDoc) : Expense :=
  ⟨d.id, d.userId, d.date, d.category, decryptData d.encryptedAmount⟩

/-- Comparator of the expenses sort: reverse order of `date`. -/
def leDateDesc (a b : Expense) : Bool := natListLe b.date a.date

/-- `cloudData` of the expenses snapshot handler: decoded records, sorted
in reverse order of date. -/
def expenseCloudData (snap : List ExpenseDoc) : List Expense :=
  insSort leDateDesc (snap.map decodeExpenseDoc)

/-- The snapshot-merge step of `subscribeToExpenses` (db.ts lines 535-552). -/
def reconcileExpenses (userId : JStr) (snap : List ExpenseDoc) (cache : List Expense) :
    List Expense :=
  cache.filter (fun c => decide (c.userId ≠ userId)) ++ expenseCloudData snap ++
    cache.filter (fun c =>
      decide (c.userId = userId) &&
        decide (c.id ∉ (expenseCloudData snap).map (fun d => d.id)))

/-- A recurring template record. -/
structure RecurringTemplate where
  id : JStr
  userId : JStr
  decryptedAmount : JStr
  deriving DecidableEq

/-- The owner callback wrapped around a cutoffs observer by
`subscribeToCutoffs` (db.ts lines 459-461): filter by `userId` first. -/
def cutoffDeliver (userId : JStr) (allData : List CutOff) : List CutOff :=
  allData.filter (fun c => decide (c.userId = userId))

/-- The owner callback wrapped around an expenses observer by
`subscribeToExpenses` (db.ts lines 522-524). -/
def expenseDeliver (userId : JStr) (allData : List Expense) : List Expense :=
  allData.filter (fun e => decide (e.userId = userId))

/-- The owner callback wrapped around a templates observer by
`subscribeToTemplates` (db.ts lines 401-403). -/
def templateDeliver (userId : JStr) (allData : List RecurringTemplate) :
    List RecurringTemplate :=
  allData.filter (fun t => decide (t.userId = userId))

/-- The categories engine: the shared categories state plus the observer
list of the `categories` channel (observers named by numbers). -/
structure CatEngine where
  st : CatState
  obs : List Nat
  deriving DecidableEq

/-- One remote categories snapshot arrival at the engine level: reconcile,
store the merged view, and deliver it to every registered observer
(`notifyListeners`), in registration order. -/
def catEngineSnap (e : CatEngine) (snap : List Category) :
    CatEngine × List (Nat × List Category) :=
  let merged := reconcileCategories snap e.st.cache e.st.pd e.st.pdn
  (⟨{ e.st with cache := merged }, e.obs⟩, e.obs.map (fun o => (o, merged)))

/-- `subscribeToCategories` at the engine level (db.ts lines 137-139):
append the observer and synchronously hand it a copy of the current cache.
The second component is the view the new observer is called with during the
subscribe call. -/
def catEngineSubscribe (e : CatEngine) (o : Nat) : CatEngine × List Category :=
  (⟨e.st, e.obs ++ [o]⟩, e.st.cache)

/-- Run a sequence of snapshot arrivals through the categories engine. -/
def catEngineRun (e : CatEngine) : List (List Category) → CatEngine
  | [] => e
  | s :: ss => catEngineRun (catEngineSnap e s).1 ss

/-- The cutoffs engine: the shared cache plus the observers of the
`cutoffs` channel, each recorded with the owner id it subscribed with. -/
structure CutoffEngine where
  cache : List CutOff
  obs : List (Nat × JStr)
  deriving DecidableEq

/-- `subscribeToCutoffs` at the engine level (db.ts lines 458-464): wrap the
observer in an owner filter, register it, and synchronously hand it the
owner-filtered current cache. -/
def cutoffEngineSubscribe (e : CutoffEngine) (o : Nat) (userId : JStr) :
    CutoffEngine × List CutOff :=
  (⟨e.cache, e.obs ++ [(o, userId)]⟩, cutoffDeliver userId e.cache)

/-- One remote cutoffs snapshot arrival at the engine level: reconcile for
the subscribing owner, store the merge, and deliver the owner-filtered view
to every observer. -/
def cutoffEngineSnap (e : CutoffEngine) (userId : JStr) (snap : List CutoffDoc) :
    CutoffEngine × List (Nat × List CutOff) :=
  let merged := reconcileCutoffs userId snap e.cache
  (⟨merged, e.obs⟩, e.obs.map (fun ou => (ou.1, cutoffDeliver ou.2 merged)))

/-- The synchronous local effect of `saveExpense` (db.ts lines 565-580): in
offline mode the new record is prepended to the cache and the channel
notified (`true`); in connected mode the cache is untouched and no local
notification happens (the comment marks this as a deliberate fix: Firestore
pending writes feed the snapshot listener instead). -/
def saveExpenseLocal (online : Bool) (nowId : JStr) (e : Expense) (cache : List Expense) :
    List Expense × Bool :=
  if !online then ({ e with id := nowId } :: cache, true) else (cache, false)

/-- The synchronous local effect of `saveCutOff` (db.ts lines 503-517). -/
def saveCutOffLocal (online : Bool) (nowId : JStr) (c : CutOff) (cache : List CutOff) :
    List CutOff × Bool :=
  if !online then ({ c with id := nowId } :: cache, true) else (cache, false)

theorem sextetOf_b64CharOf : ∀ n, n < 64 → sextetOf (b64CharOf n) = some n := by decide

theorem b64CharOf_mem : ∀ n, n < 64 → b64CharOf n ∈ b64Alphabet := by decide

theorem b64CharOf_ne_61 : ∀ n, n < 64 → b64CharOf n ≠ 61 := by decide

theorem alphabet_not_ws : ∀ c ∈ b64Alphabet, isJsWs c = false := by decide

theorem mem_btoaBytes : ∀ s : JStr, (∀ b ∈ s, b < 256) →
    ∀ c ∈ btoaBytes s, c ∈ b64Alphabet ∨ c = 61
  | [] => by intro _ c hc; simp [btoaBytes] at hc
  | [b0] => by
    intro h c hc
    simp only [btoaBytes, List.mem_cons, List.not_mem_nil, or_false] at hc
    have hb0 : b0 < 256 := h b0 (by simp)
    rcases hc with rfl | rfl | rfl | rfl
    · exact Or.inl (b64CharOf_mem _ (by omega))
    · exact Or.inl (b64CharOf_mem _ (by omega))
    · exact Or.inr rfl
    · exact Or.inr rfl
  | [b0, b1] => by
    intro h c hc
    simp only [btoaBytes, List.mem_cons, List.not_mem_nil, or_false] at hc
    have hb0 : b0 < 256 := h b0 (by simp)
    have hb1 : b1 < 256 := h b1 (by simp)
    rcases hc with rfl | rfl | rfl | rfl
    · exact Or.inl (b64CharOf_mem _ (by omega))
    · exact Or.inl (b64CharOf_mem _ (by omega))
    · exact Or.inl (b64CharOf_mem _ (by omega))
    · exact Or.inr rfl
  | b0 :: b1 :: b2 :: b3 :: rest => by
    intro h c hc
    simp only [btoaBytes, List.mem_cons] at hc
    have hb0 : b0 < 256 := h b0 (by simp)
    have hb1 : b1 < 256 := h b1 (by simp)
    have hb2 : b2 < 256 := h b2 (by simp)
    rcases hc with rfl | rfl | rfl | rfl | hmem
    · exact Or.inl (b64CharOf_mem _ (by omega))
    · exact Or.inl (b64CharOf_mem _ (by omega))
    · exact Or.inl (b64CharOf_mem _ (by omega))
    · exact Or.inl (b64CharOf_mem _ (by omega))
    · exact mem_btoaBytes (b3 :: rest) (fun b hb => h b (by simp [hb])) c hmem
  | [b0, b1, b2] => by
    intro h c hc
    simp only [btoaBytes, List.mem_cons, List.not_mem_nil, or_false] at hc
    have hb0 : b0 < 256 := h b0 (by simp)
    have hb1 : b1 < 256 := h b1 (by simp)
    have hb2 : b2 < 256 := h b2 (by simp)
    rcases hc with rfl | rfl | rfl | rfl
    · exact Or.inl (b64CharOf_mem _ (by omega))
    · exact Or.inl (b64CharOf_mem _ (by omega))
    · exact Or.inl (b64CharOf_mem _ (by omega))
    · exact Or.inl (b64CharOf_mem _ (by omega))

theorem btoaBytes_no_ws (s : JStr) (h : ∀ b ∈ s, b < 256) :
    (btoaBytes s).filter (fun c => !isJsWs c) = btoaBytes s := by
  apply filter_of_all_true
  intro c hc
  rcases mem_btoaBytes s h c hc with hmem | rfl
  · simp [alphabet_not_ws c hmem]
  · rfl

theorem atobCore_btoaBytes : ∀ s : JStr, (∀ b ∈ s, b < 256) →
    atobCore (btoaBytes s) = some s
  | [] => by intro _; rfl
  | [b0] => by
    intro h
    have hb0 : b0 < 256 := h b0 (by simp)
    show atobCore [b64CharOf (b0 / 4), b64CharOf (b0 % 4 * 16), 61, 61] = some [b0]
    simp only [atobCore]
    rw [if_pos (by simp)]
    unfold b64Dec2
    rw [sextetOf_b64CharOf _ (by omega), sextetOf_b64CharOf _ (by omega)]
    simp only [Option.some.injEq, List.cons.injEq, and_true]
    omega
  | [b0, b1] => by
    intro h
    have hb0 : b0 < 256 := h b0 (by simp)
    have hb1 : b1 < 256 := h b1 (by simp)
    show atobCore [b64CharOf (b0 / 4), b64CharOf (b0 % 4 * 16 + b1 / 16),
      b64CharOf (b1 % 16 * 4), 61] = some [b0, b1]
    simp only [atobCore]
    rw [if_neg (by
      rintro ⟨-, h2, -⟩
      exact b64CharOf_ne_61 _ (by omega) h2)]
    rw [if_pos (by simp)]
    unfold b64Dec3
    rw [sextetOf_b64CharOf _ (by omega), sextetOf_b64CharOf _ (by omega),
      sextetOf_b64CharOf _ (by omega)]
    simp only [Option.some.injEq, List.cons.injEq, and_true]
    omega
  | b0 :: b1 :: b2 :: rest => by
    intro h
    have hb0 : b0 < 256 := h b0 (by simp)
    have hb1 : b1 < 256 := h b1 (by simp)
    have hb2 : b2 < 256 := h b2 (by simp)
    have hrest : ∀ b ∈ rest, b < 256 := fun b hb => h b (by simp [hb])
    show atobCore (b64CharOf (b0 / 4) :: b64CharOf (b0 % 4 * 16 + b1 / 16) ::
      b64CharOf (b1 % 16 * 4 + b2 / 64) :: b64CharOf (b2 % 64) :: btoaBytes rest)
      = some (b0 :: b1 :: b2 :: rest)
    simp only [atobCore]
    rw [if_neg (by
      rintro ⟨-, h2, -⟩
      exact b64CharOf_ne_61 _ (by omega) h2)]
    rw [if_neg (by
      rintro ⟨-, h3⟩
      exact b64CharOf_ne_61 _ (by omega) h3)]
    rw [sextetOf_b64CharOf _ (by omega), sextetOf_b64CharOf _ (by omega),
      sextetOf_b64CharOf _ (by omega), sextetOf_b64CharOf _ (by omega),
      atobCore_btoaBytes rest hrest]
    simp only [Option.some.injEq, List.cons.injEq, and_true]
    refine ⟨by omega, by omega, by omega⟩

/-- The platform decode inverts the platform encode on any byte list. -/
theorem atobL_btoaBytes (s : JStr) (h : ∀ b ∈ s, b < 256) :
    atobL (btoaBytes s) = some s := by
  unfold atobL
  rw [btoaBytes_no_ws s h, atobCore_btoaBytes s h]

theorem startsWithL_append : ∀ (p t : JStr), startsWithL p (p ++ t) = true
  | [], _ => rfl
  | c :: cs, t => by
    show (decide (c = c) && startsWithL cs (cs ++ t)) = true
    rw [startsWithL_append cs t]
    simp

theorem replaceFirstL_append (p t : JStr) (hp : p ≠ []) :
    replaceFirstL p (p ++ t) = t := by
  cases p with
  | nil => exact absurd rfl hp
  | cons c cs =>
    show replaceFirstL (c :: cs) (c :: (cs ++ t)) = t
    unfold replaceFirstL
    rw [if_pos (show startsWithL (c :: cs) (c :: (cs ++ t)) = true from
      startsWithL_append (c :: cs) t)]
    exact (show List.drop (c :: cs).length ((c :: cs) ++ t) = t from List.drop_left (c :: cs) t)

theorem leCatName_total : ∀ a b : Category, leCatName a b = true ∨ leCatName b a = true :=
  fun a b => natListLe_total a.name b.name

theorem leCatName_trans : ∀ a b c : Category,
    leCatName a b = true → leCatName b c = true → leCatName a c = true :=
  fun a b c h1 h2 => natListLe_trans a.name b.name c.name h1 h2

theorem mem_insertSet (x y : JStr) (l : List JStr) :
    y ∈ insertSet x l ↔ y ∈ l ∨ y = x := by
  unfold insertSet
  by_cases h : x ∈ l
  · rw [if_pos h]
    constructor
    · exact Or.inl
    · rintro (hy | rfl)
      · exact hy
      · exact h
  · rw [if_neg h]
    simp [List.mem_append]

theorem not_mem_removeSet (x : JStr) (l : List JStr) : x ∉ removeSet x l := by
  unfold removeSet
  intro h
  have := List.of_mem_filter h
  simp at this

theorem mem_removeSet (x y : JStr) (l : List JStr) :
    y ∈ removeSet x l ↔ y ∈ l ∧ y ≠ x := by
  unfold removeSet
  rw [List.mem_filter]
  simp

/-- The second pass of the categories merge filters the first pass back down
to exactly the sorted pending items, given trim-invariant snapshot names. -/
theorem reconcileCategories_idem (snap cache : List Category) (pd pdn : List JStr)
    (hTrim : ∀ c ∈ snap, trimL c.name = c.name) :
    reconcileCategories snap (reconcileCategories snap cache pd pdn) pd pdn
      = reconcileCategories snap cache pd pdn := by
  have hpfilter : ∀ cache2 : List Category, pendingOf snap cache2 pd pdn
      = cache2.filter (fun c =>
        decide (normKey c.name ∉ cloudNamesOf snap pd pdn) && decide (c.id ∉ pd) &&
          decide (normKey c.name ∉ pdn)) := fun _ => rfl
  set p := (fun c : Category =>
    decide (normKey c.name ∉ cloudNamesOf snap pd pdn) && decide (c.id ∉ pd) &&
      decide (normKey c.name ∉ pdn)) with hp
  have hcatsp : ∀ a ∈ insSort leCatName (catsOf snap pd pdn), p a = false := by
    intro a ha
    rw [mem_insSort] at ha
    have hsnap : a ∈ snap := List.mem_of_mem_filter ha
    have hnk : normKey a.name = toLowerL a.name := by
      unfold normKey
      rw [hTrim a hsnap]
    have hmem : toLowerL a.name ∈ cloudNamesOf snap pd pdn :=
      List.mem_map_of_mem (fun c => toLowerL c.name) ha
    rw [hp]
    simp only [Bool.and_eq_false_iff]
    left; left
    simp [hnk, hmem]
  have hpendp : ∀ b ∈ insSort leCatName (cache.filter p), p b = true := by
    intro b hb
    rw [mem_insSort] at hb
    exact List.of_mem_filter hb
  unfold reconcileCategories
  rw [hpfilter cache,
    hpfilter (insSort leCatName (catsOf snap pd pdn ++ List.filter p cache)),
    insSort_append leCatName leCatName_total leCatName_trans (catsOf snap pd pdn)
      (cache.filter p),
    filter_mergeL_of leCatName p (insSort leCatName (catsOf snap pd pdn))
      (insSort leCatName (cache.filter p)) hcatsp hpendp,
    insSort_append leCatName leCatName_total leCatName_trans (catsOf snap pd pdn)
      (insSort leCatName (cache.filter p)),
    insSort_idem leCatName leCatName_total leCatName_trans (cache.filter p),
    ← insSort_append leCatName leCatName_total leCatName_trans (catsOf snap pd pdn)
      (cache.filter p)]

/-- Applying the cutoffs merge to its own output with the same (owner
scoped) snapshot reproduces the same list. -/
theorem reconcileCutoffs_idem (u : JStr) (snap : List CutoffDoc) (cache : List CutOff)
    (hu : ∀ d ∈ snap, d.userId = u) :
    reconcileCutoffs u snap (reconcileCutoffs u snap cache) = reconcileCutoffs u snap cache := by
  have hcloudu : ∀ r ∈ cutoffCloudData snap, r.userId = u := by
    intro r hr
    unfold cutoffCloudData at hr
    rw [mem_insSort] at hr
    unfold decodeCutoffSnapshot at hr
    rcases List.mem_map.mp hr with ⟨d, hd, rfl⟩
    exact hu d hd
  set qN := (fun c : CutOff => decide (c.userId ≠ u)) with hqN
  set qO := (fun c : CutOff =>
    decide (c.userId = u) && decide (c.id ∉ (cutoffCloudData snap).map (fun d => d.id)))
    with hqO
  show List.filter qN (cache.filter qN ++ cutoffCloudData snap ++ cache.filter qO) ++
      cutoffCloudData snap ++
      List.filter qO (cache.filter qN ++ cutoffCloudData snap ++ cache.filter qO)
    = cache.filter qN ++ cutoffCloudData snap ++ cache.filter qO
  rw [List.filter_append, List.filter_append, List.filter_append, List.filter_append]
  rw [filter_of_all_true qN (cache.filter qN) (fun a ha => List.of_mem_filter ha)]
  rw [filter_of_all_false qN (cutoffCloudData snap) (by
    intro r hr
    rw [hqN]
    simp [hcloudu r hr])]
  rw [filter_of_all_false qN (cache.filter qO) (by
    intro r hr
    have h1 := List.of_mem_filter hr
    rw [hqO] at h1
    rw [hqN]
    rcases Bool.and_eq_true_iff.mp h1 with ⟨h2, -⟩
    simp only [decide_eq_true_eq] at h2
    simp [h2])]
  rw [filter_of_all_false qO (cache.filter qN) (by
    intro r hr
    have h1 := List.of_mem_filter hr
    rw [hqN] at h1
    rw [hqO]
    simp only [decide_eq_true_eq] at h1
    simp [h1])]
  rw [filter_of_all_false qO (cutoffCloudData snap) (by
    intro r hr
    rw [hqO]
    have : r.id ∈ (cutoffCloudData snap).map (fun d => d.id) :=
      List.mem_map_of_mem (fun d => d.id) hr
    simp [this])]
  rw [filter_of_all_true qO (cache.filter qO) (fun a ha => List.of_mem_filter ha)]
  simp

/-- Applying the expenses merge to its own output with the same (owner
scoped) snapshot reproduces the same list. -/
theorem reconcileExpenses_idem (u : JStr) (snap : List ExpenseDoc) (cache : List Expense)
    (hu : ∀ d ∈ snap, d.userId = u) :
    reconcileExpenses u snap (reconcileExpenses u snap cache)
      = reconcileExpenses u snap cache := by
  have hcloudu : ∀ r ∈ expenseCloudData snap, r.userId = u := by
    intro r hr
    unfold expenseCloudData at hr
    rw [mem_insSort] at hr
    rcases List.mem_map.mp hr with ⟨d, hd, rfl⟩
    exact hu d hd
  set qN := (fun c : Expense => decide (c.userId ≠ u)) with hqN
  set qO := (fun c : Expense =>
    decide (c.userId = u) && decide (c.id ∉ (expenseCloudData snap).map (fun d => d.id)))
    with hqO
  show List.filter qN (cache.filter qN ++ expenseCloudData snap ++ cache.filter qO) ++
      expenseCloudData snap ++
      List.filter qO (cache.filter qN ++ expenseCloudData snap ++ cache.filter qO)
    = cache.filter qN ++ expenseCloudData snap ++ cache.filter qO
  rw [List.filter_append, List.filter_append, List.filter_append, List.filter_append]
  rw [filter_of_all_true qN (cache.filter qN) (fun a ha => List.of_mem_filter ha)]
  rw [filter_of_all_false qN (expenseCloudData snap) (by
    intro r hr
    rw [hqN]
    simp [hcloudu r hr])]
  rw [filter_of_all_false qN (cache.filter qO) (by
    intro r hr
    have h1 := List.of_mem_filter hr
    rw [hqO] at h1
    rw [hqN]
    rcases Bool.and_eq_true_iff.mp h1 with ⟨h2, -⟩
    simp only [decide_eq_true_eq] at h2
    simp [h2])]
  rw [filter_of_all_false qO (cache.filter qN) (by
    intro r hr
    have h1 := List.of_mem_filter hr
    rw [hqN] at h1
    rw [hqO]
    simp only [decide_eq_true_eq] at h1
    simp [h1])]
  rw [filter_of_all_false qO (expenseCloudData snap) (by
    intro r hr
    rw [hqO]
    have : r.id ∈ (expenseCloudData snap).map (fun d => d.id) :=
      List.mem_map_of_mem (fun d => d.id) hr
    simp [this])]
  rw [filter_of_all_true qO (cache.filter qO) (fun a ha => List.of_mem_filter ha)]
  simp

/-- Every record in a merged categories view has an id outside the
id-tombstone set: both the snapshot filter and the pending filter test it. -/
theorem mem_reconcileCategories_not_pd (snap cache : List Category) (pd pdn : List JStr)
    (c : Category) (hc : c ∈ reconcileCategories snap cache pd pdn) : c.id ∉ pd := by
  unfold reconcileCategories at hc
  rw [mem_insSort] at hc
  rcases List.mem_append.mp hc with h1 | h2
  · have h := List.of_mem_filter h1
    rcases Bool.and_eq_true_iff.mp h with ⟨h3, -⟩
    simpa using h3
  · have h := List.of_mem_filter h2
    rcases Bool.and_eq_true_iff.mp h with ⟨h3, -⟩
    rcases Bool.and_eq_true_iff.mp h3 with ⟨-, h4⟩
    simpa using h4

/-- In connected mode `addSystemCategory` only cancels the name tombstone
locally; the cache and the id tombstones are untouched whether or not the
duplicate check throws. -/
theorem addSystemCategoryLocal_online (nm nowId : JStr) (st : CatState) :
    (addSystemCategoryLocal true nm nowId st).1
      = ⟨st.cache, st.pd, removeSet (normKey nm) st.pdn⟩ := by
  unfold addSystemCategoryLocal
  by_cases h : st.cache.any (fun c => decide (toLowerL c.name = normKey nm)) = true
  · rw [if_pos h]
  · rw [if_neg h]
    rfl

/-- Deleting a non-`temp_` id in connected mode records it in the
id-tombstone set. -/
theorem deleteSystemCategoryLocal_pd (iOld : JStr) (st : CatState)
    (hnt : startsWithL tempMarker iOld = false) :
    (deleteSystemCategoryLocal true iOld st).pd = insertSet iOld st.pd := by
  simp [deleteSystemCategoryLocal, hnt]

/-- C1 (tombstone precedence): once a category record R is tombstoned
locally (id in `PENDING_DELETES`, normalized name in
`PENDING_DELETE_NAMES`), no sequence of remote snapshots that still contain
R ever produces a merged view (written to the cache and handed to the
observers) containing any record with the id of R; snapshot processing never
clears the tombstone, so the suppression in particular lasts until a
snapshot omitting R arrives. -/
theorem tombstonePrecedence (st : CatState) (rid rname : JStr)
    (hid : rid ∈ st.pd) (hname : normKey rname ∈ st.pdn)
    (snaps : List (List Category))
    (hstill : ∀ s ∈ snaps, ∃ r ∈ s, r.id = rid ∧ r.name = rname) :
    ∀ v ∈ catViews st snaps, ∀ c ∈ v, c.id ≠ rid := by
  induction snaps generalizing st with
  | nil => intro v hv; simp [catViews] at hv
  | cons s ss ih =>
    intro v hv c hc
    simp only [catViews, List.mem_cons] at hv
    rcases hv with rfl | hv2
    · intro heq
      exact mem_reconcileCategories_not_pd s st.cache st.pd st.pdn c hc (heq ▸ hid)
    · exact ih (catSnapStep st s) hid hname
        (fun x hx => hstill x (List.mem_cons_of_mem s hx)) v hv2 c hc

/-- Witness for C1 at a concrete state: id `i` and name key `n` tombstoned,
one snapshot still containing the record. -/
theorem tombstonePrecedence_witness :
    ([105] ∈ (⟨[], [[105]], [[110]]⟩ : CatState).pd) ∧
    (normKey [110] ∈ (⟨[], [[105]], [[110]]⟩ : CatState).pdn) ∧
    (∀ s ∈ [[(⟨[105], [110]⟩ : Category)]], ∃ r ∈ s, r.id = [105] ∧ r.name = [110]) ∧
    (∀ v ∈ catViews ⟨[], [[105]], [[110]]⟩ [[⟨[105], [110]⟩]], ∀ c ∈ v, c.id ≠ [105]) :=
  ⟨by decide, by decide, by decide,
    tombstonePrecedence ⟨[], [[105]], [[110]]⟩ [105] [110] (by decide) (by decide)
      [[⟨[105], [110]⟩]] (by decide)⟩

/-- C7 counterexample: record with id `x` and name key `k` is pending
deletion; a snapshot omitting it is processed, yet its id is still in the
pending-delete id set and its key still in the pending-delete name set —
the snapshot handler never removes tombstone entries. -/
theorem tombstoneRemoval_cex :
    [120] ∈ (catSnapStep ⟨[], [[120]], [[107]]⟩ []).pd ∧
    [107] ∈ (catSnapStep ⟨[], [[120]], [[107]]⟩ []).pdn := by decide

/-- C7 amended: the snapshot handler never changes either tombstone set;
the only removal paths are (a) `addSystemCategory`, which removes the
normalized name of the new category from the name set, and (b) a delete of
a locally generated `temp_` id in connected mode, which removes that id
again; a delete of a non-`temp_` id leaves the id tombstoned. -/
theorem tombstoneRemoval_amended :
    (∀ (st : CatState) (snap : List Category),
      (catSnapStep st snap).pd = st.pd ∧ (catSnapStep st snap).pdn = st.pdn) ∧
    (∀ (online : Bool) (nm nowId : JStr) (st : CatState),
      normKey nm ∉ ((addSystemCategoryLocal online nm nowId st).1).pdn) ∧
    (∀ (id : JStr) (st : CatState), startsWithL tempMarker id = true →
      id ∉ (deleteSystemCategoryLocal true id st).pd) ∧
    (∀ (id : JStr) (st : CatState), startsWithL tempMarker id = false →
      id ∈ (deleteSystemCategoryLocal true id st).pd) := by
  refine ⟨fun st snap => ⟨rfl, rfl⟩, ?_, ?_, ?_⟩
  · intro online nm nowId st
    unfold addSystemCategoryLocal
    by_cases h : st.cache.any (fun c => decide (toLowerL c.name = normKey nm)) = true
    · rw [if_pos h]
      exact not_mem_removeSet (normKey nm) st.pdn
    · rw [if_neg h]
      cases online with
      | true => exact not_mem_removeSet (normKey nm) st.pdn
      | false => exact not_mem_removeSet (normKey nm) st.pdn
  · intro id st h
    show id ∉ (if true && startsWithL tempMarker id then removeSet id (insertSet id st.pd)
      else insertSet id st.pd)
    rw [h]
    simp only [Bool.and_true, if_pos rfl]
    exact not_mem_removeSet id (insertSet id st.pd)
  · intro id st h
    show id ∈ (if true && startsWithL tempMarker id then removeSet id (insertSet id st.pd)
      else insertSet id st.pd)
    rw [h]
    simp only [Bool.and_false, Bool.false_eq_true, if_neg, if_false]
    exact (mem_insertSet id id st.pd).mpr (Or.inr rfl)

/-- Witness for C7 amended: concrete instantiations of the conditional
conjuncts (a `temp_` id delete and a plain id delete). -/
theorem tombstoneRemoval_amended_witness :
    (startsWithL tempMarker [116, 101, 109, 112, 95, 49] = true ∧
      [116, 101, 109, 112, 95, 49]
        ∉ (deleteSystemCategoryLocal true [116, 101, 109, 112, 95, 49] ⟨[], [], []⟩).pd) ∧
    (startsWithL tempMarker [122] = false ∧
      [122] ∈ (deleteSystemCategoryLocal true [122] ⟨[], [], []⟩).pd) :=
  ⟨⟨by decide, tombstoneRemoval_amended.2.2.1 [116, 101, 109, 112, 95, 49] ⟨[], [], []⟩
      (by decide)⟩,
   ⟨by decide, tombstoneRemoval_amended.2.2.2 [122] ⟨[], [], []⟩ (by decide)⟩⟩

/-- C3 counterexample: a remote category whose name carries a leading space
defeats idempotence — `cloudNames` stores the untrimmed lowercase name
while the pending filter compares the trimmed one, so the record re-enters
the merge as a pending item and is duplicated on the second pass. -/
theorem idempotentReconciliation_cex :
    reconcileCategories [⟨[114], [32, 102]⟩]
        (reconcileCategories [⟨[114], [32, 102]⟩] [] [] []) [] []
      ≠ reconcileCategories [⟨[114], [32, 102]⟩] [] [] [] := by decide

/-- C3 amended: the snapshot-merge steps are idempotent — reapplying a merge
to the cache it produced, with the identical snapshot and tombstone sets,
returns the identical list — for cutoffs and expenses whenever the snapshot
is owner-scoped (as the remote equality query on the owner id guarantees),
and for
categories whenever every snapshot name is trim-invariant (no surrounding
whitespace); a snapshot name with surrounding whitespace duplicates. -/
theorem idempotentReconciliation :
    (∀ (snap cache : List Category) (pd pdn : List JStr),
      (∀ c ∈ snap, trimL c.name = c.name) →
      reconcileCategories snap (reconcileCategories snap cache pd pdn) pd pdn
        = reconcileCategories snap cache pd pdn) ∧
    (∀ (u : JStr) (snap : List CutoffDoc) (cache : List CutOff),
      (∀ d ∈ snap, d.userId = u) →
      reconcileCutoffs u snap (reconcileCutoffs u snap cache)
        = reconcileCutoffs u snap cache) ∧
    (∀ (u : JStr) (snap : List ExpenseDoc) (cache : List Expense),
      (∀ d ∈ snap, d.userId = u) →
      reconcileExpenses u snap (reconcileExpenses u snap cache)
        = reconcileExpenses u snap cache) :=
  ⟨reconcileCategories_idem, reconcileCutoffs_idem, reconcileExpenses_idem⟩

/-- Witness for C3 amended at concrete inputs (one category with a trimmed
name and a pending cache record; one owner-scoped cutoff document; one
owner-scoped expense document). -/
theorem idempotentReconciliation_witness :
    ((∀ c ∈ [(⟨[114], [102]⟩ : Category)], trimL c.name = c.name) ∧
      reconcileCategories [⟨[114], [102]⟩]
          (reconcileCategories [⟨[114], [102]⟩] [⟨[112], [103]⟩] [] []) [] []
        = reconcileCategories [⟨[114], [102]⟩] [⟨[112], [103]⟩] [] []) ∧
    ((∀ d ∈ [(⟨[99], [117], [100], [], []⟩ : CutoffDoc)], d.userId = [117]) ∧
      reconcileCutoffs [117] [⟨[99], [117], [100], [], []⟩]
          (reconcileCutoffs [117] [⟨[99], [117], [100], [], []⟩] [])
        = reconcileCutoffs [117] [⟨[99], [117], [100], [], []⟩] []) ∧
    ((∀ d ∈ [(⟨[101], [117], [100], [99], []⟩ : ExpenseDoc)], d.userId = [117]) ∧
      reconcileExpenses [117] [⟨[101], [117], [100], [99], []⟩]
          (reconcileExpenses [117] [⟨[101], [117], [100], [99], []⟩] [])
        = reconcileExpenses [117] [⟨[101], [117], [100], [99], []⟩] []) :=
  ⟨⟨by decide, idempotentReconciliation.1 [⟨[114], [102]⟩] [⟨[112], [103]⟩] [] []
      (by decide)⟩,
   ⟨by decide, idempotentReconciliation.2.1 [117] [⟨[99], [117], [100], [], []⟩] []
      (by decide)⟩,
   ⟨by decide, idempotentReconciliation.2.2 [117] [⟨[101], [117], [100], [99], []⟩] []
      (by decide)⟩⟩

/-- C2 counterexample: delete category `o` (name key `food`), then create
`food` again before the remote confirms, all in connected mode; a snapshot
that still contains only the OLD record then reconciles to a view with ZERO
records of key `food` (the claim demands exactly one in every subsequent
view), because the connected-mode create adds nothing to the cache and the
old record is id-tombstoned. -/
theorem createCancelsTombstone_cex :
    (reconcileCategories [⟨[111], [102, 111, 111, 100]⟩]
        ((addSystemCategoryLocal true [102, 111, 111, 100] [49]
          (deleteSystemCategoryLocal true [111]
            ⟨[⟨[111], [102, 111, 111, 100]⟩], [], []⟩)).1).cache
        ((addSystemCategoryLocal true [102, 111, 111, 100] [49]
          (deleteSystemCategoryLocal true [111]
            ⟨[⟨[111], [102, 111, 111, 100]⟩], [], []⟩)).1).pd
        ((addSystemCategoryLocal true [102, 111, 111, 100] [49]
          (deleteSystemCategoryLocal true [111]
            ⟨[⟨[111], [102, 111, 111, 100]⟩], [], []⟩)).1).pdn).countP
      (fun r => decide (normKey r.name = normKey [102, 111, 111, 100])) = 0 ∧
    (reconcileCategories [⟨[111], [102, 111, 111, 100]⟩]
        ((addSystemCategoryLocal true [102, 111, 111, 100] [49]
          (deleteSystemCategoryLocal true [111]
            ⟨[⟨[111], [102, 111, 111, 100]⟩], [], []⟩)).1).cache
        ((addSystemCategoryLocal true [102, 111, 111, 100] [49]
          (deleteSystemCategoryLocal true [111]
            ⟨[⟨[111], [102, 111, 111, 100]⟩], [], []⟩)).1).pd
        ((addSystemCategoryLocal true [102, 111, 111, 100] [49]
          (deleteSystemCategoryLocal true [111]
            ⟨[⟨[111], [102, 111, 111, 100]⟩], [], []⟩)).1).pdn).countP
      (fun r => decide (normKey r.name = normKey [102, 111, 111, 100])) ≠ 1 :=
  ⟨by decide, by decide⟩

/-- C2 amended: after `deleteSystemCategory` on the id of the old record
(non-`temp_`, connected mode) followed by `addSystemCategory` with the same
natural key, every reconciled view built from a snapshot that ALREADY
CONTAINS THE NEW RECORD (next to the stale old one, and no third record of
that key) has exactly one visible record with that key: the create cancelled
the name tombstone so the new record survives, the old record stays
suppressed by its id tombstone, and the surviving cloud name blocks
duplicate pending items.  (A snapshot not yet containing the new record
yields zero, as the counterexample shows.) -/
theorem createCancelsTombstone (st0 : CatState) (iOld nm nowId : JStr)
    (Rold Rnew : Category) (S : List Category)
    (hnt : startsWithL tempMarker iOld = false)
    (holdid : Rold.id = iOld)
    (hneq : Rnew.id ≠ iOld)
    (hnewpd : Rnew.id ∉ st0.pd)
    (hnewTrim : trimL Rnew.name = Rnew.name)
    (hKrecs : S.filter (fun r => decide (normKey r.name = normKey nm)) = [Rold, Rnew]) :
    (reconcileCategories S
        ((addSystemCategoryLocal true nm nowId
          (deleteSystemCategoryLocal true iOld st0)).1).cache
        ((addSystemCategoryLocal true nm nowId
          (deleteSystemCategoryLocal true iOld st0)).1).pd
        ((addSystemCategoryLocal true nm nowId
          (deleteSystemCategoryLocal true iOld st0)).1).pdn).countP
      (fun r => decide (normKey r.name = normKey nm)) = 1 := by
  set st1 := deleteSystemCategoryLocal true iOld st0 with hst1
  set q := (fun r : Category => decide (normKey r.name = normKey nm)) with hq
  rw [addSystemCategoryLocal_online nm nowId st1]
  show (reconcileCategories S st1.cache st1.pd (removeSet (normKey nm) st1.pdn)).countP q = 1
  rw [deleteSystemCategoryLocal_pd iOld st0 hnt]
  set pd2 := insertSet iOld st0.pd with hpd2
  set pdn2 := removeSet (normKey nm) st1.pdn with hpdn2
  set ok := (fun c : Category =>
    decide (c.id ∉ pd2) && decide (normKey c.name ∉ pdn2)) with hok
  have hRnew_mem_filter : Rnew ∈ S.filter q := by rw [hKrecs]; simp
  have hqRnew : q Rnew = true := List.of_mem_filter hRnew_mem_filter
  have hRnewS : Rnew ∈ S := List.mem_of_mem_filter hRnew_mem_filter
  have hKRnew : normKey Rnew.name = normKey nm := by
    rw [hq] at hqRnew
    simpa using hqRnew
  have hokRold : ok Rold = false := by
    have hm : Rold.id ∈ pd2 := by
      rw [holdid, hpd2]
      exact (mem_insertSet iOld iOld st0.pd).mpr (Or.inr rfl)
    rw [hok]
    simp [hm]
  have hokRnew : ok Rnew = true := by
    have h1 : Rnew.id ∉ pd2 := by
      rw [hpd2]
      intro hmem
      rcases (mem_insertSet iOld Rnew.id st0.pd).mp hmem with h | h
      · exact hnewpd h
      · exact hneq h
    have h2 : normKey Rnew.name ∉ pdn2 := by
      rw [hKRnew, hpdn2]
      exact not_mem_removeSet (normKey nm) st1.pdn
    rw [hok]
    simp [h1, h2]
  have hcatseq : catsOf S pd2 pdn2 = S.filter ok := rfl
  unfold reconcileCategories
  rw [(insSort_perm leCatName (catsOf S pd2 pdn2 ++ pendingOf S st1.cache pd2 pdn2)).countP_eq,
    List.countP_append]
  have hcats : (catsOf S pd2 pdn2).countP q = 1 := by
    rw [hcatseq]
    have e1 : (S.filter ok).countP q = S.countP (fun a => q a && ok a) :=
      List.countP_filter ..
    have e2 : (S.filter q).countP ok = S.countP (fun a => ok a && q a) :=
      List.countP_filter ..
    have e3 : S.countP (fun a => q a && ok a) = S.countP (fun a => ok a && q a) :=
      List.countP_congr (fun a _ => by rw [Bool.and_comm])
    rw [e1, e3, ← e2, hKrecs]
    simp [List.countP_cons, hokRold, hokRnew]
  have hpend : (pendingOf S st1.cache pd2 pdn2).countP q = 0 := by
    rw [List.countP_eq_zero]
    intro a ha hqa
    have hfa := List.of_mem_filter ha
    rcases Bool.and_eq_true_iff.mp hfa with ⟨h3, -⟩
    rcases Bool.and_eq_true_iff.mp h3 with ⟨h4, -⟩
    have hnotin : normKey a.name ∉ cloudNamesOf S pd2 pdn2 := by simpa using h4
    apply hnotin
    have hKa : normKey a.name = normKey nm := by
      rw [hq] at hqa
      simpa using hqa
    have hRnewcats : Rnew ∈ catsOf S pd2 pdn2 := by
      rw [hcatseq]
      exact List.mem_filter.mpr ⟨hRnewS, hokRnew⟩
    have hlow : toLowerL Rnew.name = normKey nm := by
      rw [← hKRnew]
      unfold normKey
      rw [hnewTrim]
    rw [hKa, ← hlow]
    exact List.mem_map_of_mem (fun c => toLowerL c.name) hRnewcats
  rw [hcats, hpend]

/-- Witness for C2 amended: concrete delete-then-re-add of key `food` with
a snapshot containing the stale old record and the new record. -/
theorem createCancelsTombstone_witness :
    (startsWithL tempMarker [111] = false) ∧
    ((⟨[111], [102, 111, 111, 100]⟩ : Category).id = [111]) ∧
    ((⟨[110], [102, 111, 111, 100]⟩ : Category).id ≠ [111]) ∧
    ((⟨[110], [102, 111, 111, 100]⟩ : Category).id
      ∉ (⟨[⟨[111], [102, 111, 111, 100]⟩], [], []⟩ : CatState).pd) ∧
    (trimL (⟨[110], [102, 111, 111, 100]⟩ : Category).name
      = (⟨[110], [102, 111, 111, 100]⟩ : Category).name) ∧
    ([(⟨[111], [102, 111, 111, 100]⟩ : Category), ⟨[110], [102, 111, 111, 100]⟩].filter
        (fun r => decide (normKey r.name = normKey [102, 111, 111, 100]))
      = [⟨[111], [102, 111, 111, 100]⟩, ⟨[110], [102, 111, 111, 100]⟩]) ∧
    (reconcileCategories [⟨[111], [102, 111, 111, 100]⟩, ⟨[110], [102, 111, 111, 100]⟩]
        ((addSystemCategoryLocal true [102, 111, 111, 100] [49]
          (deleteSystemCategoryLocal true [111]
            ⟨[⟨[111], [102, 111, 111, 100]⟩], [], []⟩)).1).cache
        ((addSystemCategoryLocal true [102, 111, 111, 100] [49]
          (deleteSystemCategoryLocal true [111]
            ⟨[⟨[111], [102, 111, 111, 100]⟩], [], []⟩)).1).pd
        ((addSystemCategoryLocal true [102, 111, 111, 100] [49]
          (deleteSystemCategoryLocal true [111]
            ⟨[⟨[111], [102, 111, 111, 100]⟩], [], []⟩)).1).pdn).countP
      (fun r => decide (normKey r.name = normKey [102, 111, 111, 100])) = 1 :=
  ⟨by decide, by decide, by decide, by decide, by decide, by decide,
    createCancelsTombstone ⟨[⟨[111], [102, 111, 111, 100]⟩], [], []⟩ [111]
      [102, 111, 111, 100] [49] ⟨[111], [102, 111, 111, 100]⟩ ⟨[110], [102, 111, 111, 100]⟩
      [⟨[111], [102, 111, 111, 100]⟩, ⟨[110], [102, 111, 111, 100]⟩]
      (by decide) (by decide) (by decide) (by decide) (by decide) (by decide)⟩

/-- C4 (ownership isolation): every record handed to an owner-scoped
observer (cutoffs, expenses, recurring templates) carries the `userId` of
that observer; a record of a different owner is never delivered, and at the
engine level every cutoff view pushed by a snapshot arrival is filtered by
the own scope of the receiving observer. -/
theorem ownershipIsolation :
    (∀ (u : JStr) (data : List CutOff) (r : CutOff),
      r ∈ cutoffDeliver u data → r.userId = u) ∧
    (∀ (u v : JStr) (data : List CutOff) (r : CutOff),
      r.userId = v → v ≠ u → r ∉ cutoffDeliver u data) ∧
    (∀ (u : JStr) (data : List Expense) (r : Expense),
      r ∈ expenseDeliver u data → r.userId = u) ∧
    (∀ (u v : JStr) (data : List Expense) (r : Expense),
      r.userId = v → v ≠ u → r ∉ expenseDeliver u data) ∧
    (∀ (u : JStr) (data : List RecurringTemplate) (r : RecurringTemplate),
      r ∈ templateDeliver u data → r.userId = u) ∧
    (∀ (u v : JStr) (data : List RecurringTemplate) (r : RecurringTemplate),
      r.userId = v → v ≠ u → r ∉ templateDeliver u data) ∧
    (∀ (e : CutoffEngine) (u : JStr) (snap : List CutoffDoc) (d : Nat × List CutOff),
      d ∈ (cutoffEngineSnap e u snap).2 →
        ∃ ou ∈ e.obs, d.1 = ou.1 ∧ ∀ r ∈ d.2, r.userId = ou.2) := by
  refine ⟨?_, ?_, ?_, ?_, ?_, ?_, ?_⟩
  · intro u data r hr
    have := List.of_mem_filter hr
    simpa using this
  · intro u v data r hv hne hr
    have := List.of_mem_filter hr
    simp only [decide_eq_true_eq] at this
    exact hne (hv ▸ this)
  · intro u data r hr
    have := List.of_mem_filter hr
    simpa using this
  · intro u v data r hv hne hr
    have := List.of_mem_filter hr
    simp only [decide_eq_true_eq] at this
    exact hne (hv ▸ this)
  · intro u data r hr
    have := List.of_mem_filter hr
    simpa using this
  · intro u v data r hv hne hr
    have := List.of_mem_filter hr
    simp only [decide_eq_true_eq] at this
    exact hne (hv ▸ this)
  · intro e u snap d hd
    rcases List.mem_map.mp hd with ⟨ou, hou, rfl⟩
    refine ⟨ou, hou, rfl, ?_⟩
    intro r hr
    have := List.of_mem_filter hr
    simpa using this

/-- Witness for C4 at concrete data: owner `u` never sees the record of
owner `v` even when both sit in the shared cache. -/
theorem ownershipIsolation_witness :
    ((⟨[49], [118], [100], [48], [48]⟩ : CutOff).userId = [118]) ∧
    ([118] ≠ ([117] : JStr)) ∧
    ((⟨[49], [118], [100], [48], [48]⟩ : CutOff)
      ∉ cutoffDeliver [117]
          [⟨[48], [117], [100], [48], [48]⟩, ⟨[49], [118], [100], [48], [48]⟩]) :=
  ⟨by decide, by decide,
    ownershipIsolation.2.1 [117] [118]
      [⟨[48], [117], [100], [48], [48]⟩, ⟨[49], [118], [100], [48], [48]⟩]
      ⟨[49], [118], [100], [48], [48]⟩ (by decide) (by decide)⟩

/-- C5 (late-subscriber replay): an observer subscribing after any number of
prior reconciliations is synchronously handed the current channel cache
(owner-filtered for owner-scoped channels), and is included in the delivery
list of every subsequent snapshot publication. -/
theorem lateSubscriberReplay :
    (∀ (e : CatEngine) (snaps : List (List Category)) (o : Nat),
      (catEngineSubscribe (catEngineRun e snaps) o).2 = (catEngineRun e snaps).st.cache) ∧
    (∀ (e : CatEngine) (snaps : List (List Category)) (o : Nat) (snap : List Category),
      (o, reconcileCategories snap (catEngineRun e snaps).st.cache
          (catEngineRun e snaps).st.pd (catEngineRun e snaps).st.pdn)
        ∈ (catEngineSnap (catEngineSubscribe (catEngineRun e snaps) o).1 snap).2) ∧
    (∀ (e : CutoffEngine) (o : Nat) (u : JStr),
      (cutoffEngineSubscribe e o u).2 = cutoffDeliver u e.cache) ∧
    (∀ (e : CutoffEngine) (o : Nat) (u usnap : JStr) (snap : List CutoffDoc),
      (o, cutoffDeliver u (reconcileCutoffs usnap snap e.cache))
        ∈ (cutoffEngineSnap (cutoffEngineSubscribe e o u).1 usnap snap).2) := by
  refine ⟨fun e snaps o => rfl, ?_, fun e o u => rfl, ?_⟩
  · intro e snaps o snap
    show (o, reconcileCategories snap (catEngineRun e snaps).st.cache
        (catEngineRun e snaps).st.pd (catEngineRun e snaps).st.pdn)
      ∈ ((catEngineRun e snaps).obs ++ [o]).map (fun ob => (ob,
        reconcileCategories snap (catEngineRun e snaps).st.cache
          (catEngineRun e snaps).st.pd (catEngineRun e snaps).st.pdn))
    exact List.mem_map_of_mem _ (by simp)
  · intro e o u usnap snap
    show ((o, u).1, cutoffDeliver (o, u).2 (reconcileCutoffs usnap snap e.cache))
      ∈ (e.obs ++ [(o, u)]).map (fun ou =>
        (ou.1, cutoffDeliver ou.2 (reconcileCutoffs usnap snap e.cache)))
    exact List.mem_map_of_mem _ (by simp)

/-- C6 counterexample: in connected mode (`db` non-null), `saveExpense`
leaves the Local Cache Store untouched and notifies no observer — the new
record is NOT visible locally before the remote snapshot echoes it back,
contrary to the claim that the optimistic insert happens in connected mode
as well. -/
theorem optimisticWrite_cex :
    (saveExpenseLocal true [49] ⟨[], [117], [100], [99], [53]⟩ []).1 = [] ∧
    (saveExpenseLocal true [49] ⟨[], [117], [100], [99], [53]⟩ []).2 = false := by decide

/-- C6 amended: the optimistic local insert (record prepended or appended to
the cache, observers notified synchronously) happens only in OFFLINE mode
for `saveExpense`, `saveCutOff` and `addSystemCategory`; in connected mode
each of these leaves the local cache untouched by the write call itself and
relies on the remote snapshot echo for visibility. -/
theorem optimisticWrite_amended :
    (∀ (nowId : JStr) (e : Expense) (cache : List Expense),
      saveExpenseLocal false nowId e cache = ({ e with id := nowId } :: cache, true)) ∧
    (∀ (nowId : JStr) (e : Expense) (cache : List Expense),
      saveExpenseLocal true nowId e cache = (cache, false)) ∧
    (∀ (nowId : JStr) (c : CutOff) (cache : List CutOff),
      saveCutOffLocal false nowId c cache = ({ c with id := nowId } :: cache, true)) ∧
    (∀ (nowId : JStr) (c : CutOff) (cache : List CutOff),
      saveCutOffLocal true nowId c cache = (cache, false)) ∧
    (∀ (nm nowId : JStr) (st : CatState),
      st.cache.any (fun c => decide (toLowerL c.name = normKey nm)) = false →
      ((addSystemCategoryLocal false nm nowId st).1).cache
        = st.cache ++ [⟨tempMarker ++ nowId, trimL nm⟩]) ∧
    (∀ (nm nowId : JStr) (st : CatState),
      ((addSystemCategoryLocal true nm nowId st).1).cache = st.cache) := by
  refine ⟨fun nowId e cache => rfl, fun nowId e cache => rfl,
    fun nowId c cache => rfl, fun nowId c cache => rfl, ?_, ?_⟩
  · intro nm nowId st h
    unfold addSystemCategoryLocal
    rw [if_neg (by simp [h])]
    rfl
  · intro nm nowId st
    rw [addSystemCategoryLocal_online]

/-- Witness for C6 amended: a concrete offline category add passing the
duplicate check. -/
theorem optimisticWrite_amended_witness :
    ((⟨[], [], []⟩ : CatState).cache.any
        (fun c => decide (toLowerL c.name = normKey [102])) = false) ∧
    ((addSystemCategoryLocal false [102] [49] ⟨[], [], []⟩).1).cache
      = ([] : List Category) ++ [⟨tempMarker ++ [49], trimL [102]⟩] :=
  ⟨by decide, optimisticWrite_amended.2.2.2.2.1 [102] [49] ⟨[], [], []⟩ (by decide)⟩

/-- The views the observers of one publish actually receive: the single
shared buffer `safeData` is threaded through the observers in call order,
each observer seeing the in-place edits of the observers before it. -/
def observerViews (muts : List (List α → List α)) (buf : List α) : List (List α) :=
  match muts with
  | [] => []
  | m :: ms => buf :: observerViews ms (m buf)

/-- Sequential composition of in-place edits. -/
def applyAll (fs : List (List α → List α)) (x : List α) : List α :=
  fs.foldl (fun a f => f a) x

/-- Model of `notifyListeners` (db.ts lines 53-58): ONE defensive copy
`safeData = [...data]` is made per publish and that same array is passed to
every observer callback in order; the cached list of the engine (returned as
the second component) is a different array and stays as published. -/
def notifyListenersModel (muts : List (List α → List α)) (data : List α) :
    List (List α) × List α :=
  (observerViews muts data, data)

/-- C9 counterexample: with two observers of one publish of `[7]`, the
first appending `42` to the array it was handed, the second observer
receives `[7, 42]`, not an independent copy of the published view `[7]` —
`notifyListeners` copies once per publish, not once per observer. -/
theorem independentCopy_cex :
    ((notifyListenersModel [fun l => l ++ [42], fun l => l] [7]).1).get? 1 ≠ some [7] := by
  decide

/-- C9 amended: one fresh copy is made per publish and shared by all of
the observers of that publish: the engine cache list is never affected by
observer edits, the first observer receives exactly the published view, and
observer `i` receives the shared buffer after the edits of observers
`0..i-1` have been applied to it. -/
theorem independentCopy_amended :
    (∀ (muts : List (List Nat → List Nat)) (data : List Nat),
      (notifyListenersModel muts data).2 = data) ∧
    (∀ (m : List Nat → List Nat) (ms : List (List Nat → List Nat)) (data : List Nat),
      ((notifyListenersModel (m :: ms) data).1).head? = some data) ∧
    (∀ (muts : List (List Nat → List Nat)) (data : List Nat) (i : Nat),
      i < muts.length →
      (observerViews muts data).get? i = some (applyAll (muts.take i) data)) := by
  refine ⟨fun muts data => rfl, fun m ms data => rfl, ?_⟩
  intro muts
  induction muts with
  | nil => intro data i hi; simp at hi
  | cons m ms ih =>
    intro data i hi
    cases i with
    | zero => rfl
    | succ j =>
      show (observerViews ms (m data)).get? j = _
      rw [ih (m data) j (by simpa using hi)]
      rfl

/-- Witness for C9 amended: the third conjunct at a concrete publish. -/
theorem independentCopy_amended_witness :
    (1 < ([fun l => l ++ [42], fun l => l] : List (List Nat → List Nat)).length) ∧
    (observerViews [fun l => l ++ [42], fun l => l] [7]).get? 1
      = some (applyAll (([fun l => l ++ [42], fun l => l] :
          List (List Nat → List Nat)).take 1) [7]) :=
  ⟨by decide, independentCopy_amended.2.2 [fun l => l ++ [42], fun l => l] [7] 1 (by decide)⟩

/-- C8 (decode tolerance): `decryptData` is a total function; an input
without the `ENC_` tag decodes to the default string `0` (the zero
numeral), and so does an input whose base64 payload fails the forgiving
decode; and the snapshot decode step maps records independently, so one
undecodable record leaves every other record of the snapshot intact. -/
theorem decodeTolerance :
    (∀ s : JStr, startsWithL encMarker s = false → decryptData s = zeroStr) ∧
    (∀ s : JStr, atobL (replaceFirstL encMarker s) = none → decryptData s = zeroStr) ∧
    (∀ (pre post : List CutoffDoc) (d : CutoffDoc),
      decodeCutoffSnapshot (pre ++ d :: post)
        = decodeCutoffSnapshot pre ++ decodeCutoffDoc d :: decodeCutoffSnapshot post) := by
  refine ⟨?_, ?_, ?_⟩
  · intro s hs
    simp [decryptData, hs]
  · intro s hs
    by_cases hpre : startsWithL encMarker s = true
    · simp [decryptData, hpre, hs]
    · simp [decryptData, Bool.eq_false_iff.mpr hpre]
  · intro pre post d
    simp [decodeCutoffSnapshot]

/-- Witness for C8: `xyz` carries no tag; `ENC_!` carries the tag but its
payload `!` is not base64 — both decode to `0`, and a snapshot holding a
good record on each side of the bad one keeps both. -/
theorem decodeTolerance_witness :
    (startsWithL encMarker [120, 121, 122] = false ∧
      decryptData [120, 121, 122] = zeroStr) ∧
    (atobL (replaceFirstL encMarker [69, 78, 67, 95, 33]) = none ∧
      decryptData [69, 78, 67, 95, 33] = zeroStr) :=
  ⟨⟨by decide, decodeTolerance.1 [120, 121, 122] (by decide)⟩,
   ⟨by decide, decodeTolerance.2.1 [69, 78, 67, 95, 33] (by decide)⟩⟩

/-- C10 (encode/decode round trip): for any Latin-1 string, `encryptData`
succeeds and `decryptData` recovers the original string exactly: the `ENC_`
tag is recognised and stripped (base64 output never contains an
underscore, so the first occurrence is the tag itself), the base64 payload
decodes to the salted text, and stripping the first occurrence of the salt
— sitting at position 0 — returns the payload. -/
theorem encryptDecrypt_roundTrip (s : JStr) (h : ∀ c ∈ s, c < 256) :
    ∃ e, encryptData s = some e ∧ decryptData e = s := by
  have hall2 : ∀ b ∈ secretKeyCodes ++ s, b < 256 := by
    intro c hc
    rcases List.mem_append.mp hc with h1 | h2
    · have hk : ∀ c ∈ secretKeyCodes, c < 256 := by decide
      exact hk c h1
    · exact h c h2
  have hall : (secretKeyCodes ++ s).all (fun c => decide (c < 256)) = true := by
    rw [List.all_eq_true]
    intro c hc
    simpa using hall2 c hc
  refine ⟨encMarker ++ btoaBytes (secretKeyCodes ++ s), ?_, ?_⟩
  · unfold encryptData btoaL
    rw [if_pos hall]
    rfl
  · unfold decryptData
    rw [startsWithL_append encMarker (btoaBytes (secretKeyCodes ++ s)),
      if_neg (by decide : ¬((!true) = true)),
      replaceFirstL_append encMarker (btoaBytes (secretKeyCodes ++ s)) (by decide),
      atobL_btoaBytes (secretKeyCodes ++ s) hall2]
    exact replaceFirstL_append secretKeyCodes s (by decide)

/-- Witness for C10 at the concrete Latin-1 string `hi`. -/
theorem encryptDecrypt_roundTrip_witness :
    (∀ c ∈ ([104, 105] : JStr), c < 256) ∧
    ∃ e, encryptData [104, 105] = some e ∧ decryptData e = [104, 105] :=
  ⟨by decide, encryptDecrypt_roundTrip [104, 105] (by decide)⟩
